import Mathlib

/-!
Shallow embedding of the LRC lyric parser and tokenizer (`parseLRC`) of the
Lyrical-AI-Learner repository, together with proofs of the specified
properties.

The source is a TypeScript function that
* splits the input on the newline character,
* scans each line for the first occurrence of the pattern
  `\[(\d{2}):(\d{2})(\.(\d{2,3}))?\]`,
* computes a time in seconds from the captured groups,
* strips the first matched marker, trims the remainder,
* classifies the script of the text (Kana present, CJK ideograph present),
* tokenizes accordingly (external word segmenter with a per-character
  fallback for Japanese, whitespace splitting for the default path, an empty
  token list for Chinese), and
* returns the collected lines stably sorted ascending by time.

JavaScript numbers are modelled by rationals (the time arithmetic
`MM*60 + SS + frac/1000` is exact there); strings are modelled by Lean
strings (lists of characters); the external `Intl.Segmenter` capability is a
parameter returning `Option`, where `none` models both "capability absent"
and "segmenter threw" — the two cases the source handles by falling back to
one token per character.
-/

/-- One segment produced by the external word-segmentation capability:
the segment text and its word-likeness flag. -/
structure SegPiece where
  segment : String
  isWordLike : Bool
deriving DecidableEq, Repr

/-- The external segmentation capability: `none` models the capability being
unavailable or throwing; `some pieces` models a successful segmentation. -/
def SegCap : Type := String → Option (List SegPiece)

/-- The output record of the parser (`LyricLine` in `types.ts`):
activation time in seconds, display text, clickable tokens, Japanese flag. -/
structure LyricLine where
  time : ℚ
  text : String
  words : List String
  isJapanese : Bool
deriving DecidableEq, Repr

/-- JavaScript `\d`: the ASCII digits. -/
def isAsciiDigit (c : Char) : Bool :=
  '0' ≤ c && c ≤ '9'

/-- Numeric value of an ASCII digit. -/
def digitVal (c : Char) : Nat :=
  c.toNat - '0'.toNat

/-- `parseInt(ds, 10)` on a string of ASCII digits. -/
def digitsToNat (ds : List Char) : Nat :=
  ds.foldl (fun n c => n * 10 + digitVal c) 0

/-- JavaScript whitespace (the set matched by `\s` and removed by
`String.prototype.trim`): tab, line feed, vertical tab, form feed, carriage
return, space, no-break space, the Unicode space separators, the line and
paragraph separators, and the byte-order mark. -/
def isJsWhitespace (c : Char) : Bool :=
  let n := c.toNat
  n == 0x9 || n == 0xA || n == 0xB || n == 0xC || n == 0xD || n == 0x20 ||
  n == 0xA0 || n == 0x1680 || (0x2000 ≤ n && n ≤ 0x200A) ||
  n == 0x2028 || n == 0x2029 || n == 0x202F || n == 0x205F ||
  n == 0x3000 || n == 0xFEFF

/-- `String.prototype.trim`: drop JavaScript whitespace from both ends. -/
def jsTrim (cs : List Char) : List Char :=
  (((cs.dropWhile isJsWhitespace).reverse.dropWhile isJsWhitespace).reverse)

/-- The regex `/[぀-ゟ゠-ヿ]/` of the source: does the text
contain a Hiragana or Katakana character? -/
def hasKanaChar (s : String) : Bool :=
  s.toList.any fun c =>
    (0x3040 ≤ c.toNat && c.toNat ≤ 0x309F) ||
    (0x30A0 ≤ c.toNat && c.toNat ≤ 0x30FF)

/-- The regex `/[一-鿿]/` of the source: does the text contain a
character of the CJK Unified Ideographs block? -/
def hasCJKChar (s : String) : Bool :=
  s.toList.any fun c => 0x4E00 ≤ c.toNat && c.toNat ≤ 0x9FFF

/-- Matching of the optional fraction of the timestamp regex, entered after
the dot has been consumed: the greedy `(\d{2,3})` tries three digits first,
then two, and in both cases the closing bracket must follow.  Returns the
fraction digits and the characters after the closing bracket. -/
def matchFrac (cs : List Char) : Option (List Char × List Char) :=
  match cs with
  | a :: b :: rest =>
    if isAsciiDigit a && isAsciiDigit b then
      match rest with
      | c :: rest2 =>
        if isAsciiDigit c then
          match rest2 with
          | ']' :: r => some ([a, b, c], r)
          | _ => none
        else if c = ']' then some ([a, b], rest2)
        else none
      | [] => none
    else none
  | _ => none

/-- One match attempt of `/\[(\d{2}):(\d{2})(\.(\d{2,3}))?\]/` anchored at
the head of the character list.  Returns the minutes value, the seconds
value, the fraction digits when the optional group matched, and the
characters after the match.  When the optional group starts (a dot is
present) but cannot complete, the whole attempt fails, because the empty
alternative of the optional group then requires `]` where the dot stands. -/
def matchTsAt (cs : List Char) : Option (Nat × Nat × Option (List Char) × List Char) :=
  match cs with
  | '[' :: d1 :: d2 :: ':' :: d3 :: d4 :: rest =>
    if isAsciiDigit d1 && isAsciiDigit d2 && isAsciiDigit d3 && isAsciiDigit d4 then
      let m := digitsToNat [d1, d2]
      let s := digitsToNat [d3, d4]
      match rest with
      | '.' :: rest2 =>
        match matchFrac rest2 with
        | some (fr, r) => some (m, s, some fr, r)
        | none => none
      | ']' :: r => some (m, s, none, r)
      | _ => none
    else none
  | _ => none

/-- A successful `timeRegex.exec(line)`: the characters before the match,
the captured minutes, seconds and optional fraction digits, and the
characters after the match. -/
structure TsMatch where
  pre : List Char
  minute : Nat
  second : Nat
  frac : Option (List Char)
  post : List Char
deriving DecidableEq, Repr

/-- `timeRegex.exec(line)`: the leftmost match of the timestamp pattern, by
trying a match attempt at every position from the left. -/
def execTs : List Char → Option TsMatch
  | [] => none
  | c :: cs =>
    match matchTsAt (c :: cs) with
    | some (m, s, f, r) => some ⟨[], m, s, f, r⟩
    | none =>
      match execTs cs with
      | some t => some ⟨c :: t.pre, t.minute, t.second, t.frac, t.post⟩
      | none => none

/-- `match[4].padEnd(3, '0')`: right-pad the fraction digits with zeros to
three places. -/
def padEnd3 (ds : List Char) : List Char :=
  ds ++ List.replicate (3 - ds.length) '0'

/-- `text.split(/\s+/)` as a two-state scanner over the characters:
`skipping = false` accumulates the current piece in `acc` (reversed);
`skipping = true` consumes a maximal whitespace run.  Pieces before a
leading run and after a trailing run are kept (they are empty), exactly as
JavaScript `split` keeps them. -/
def splitWsGo : List Char → List Char → Bool → List (List Char)
  | [], acc, false => [acc.reverse]
  | [], _, true => [[]]
  | c :: cs, acc, false =>
    if isJsWhitespace c then acc.reverse :: splitWsGo cs [] true
    else splitWsGo cs (c :: acc) false
  | c :: cs, _, true =>
    if isJsWhitespace c then splitWsGo cs [] true
    else splitWsGo cs [c] false

/-- `text.split(/\s+/)`. -/
def jsSplitWs (cs : List Char) : List (List Char) :=
  splitWsGo cs [] false

/-- `text.split('')`: one token per character. -/
def perCharTokens (s : String) : List String :=
  s.toList.map fun c => String.mk [c]

/-- The time computation `minute * 60 + second + millisecond / 1000`,
exact over the rationals. -/
def tsTime (minute second millisecond : ℕ) : ℚ :=
  minute * 60 + second + (millisecond : ℚ) / 1000

/-- Processing of one physical line of the input (the body of the `for`
loop of `parseLRC`): `none` when the line contributes no `LyricLine`
(no timestamp match, or empty text after stripping and trimming). -/
def parseLine (segmenter : SegCap) (line : String) : Option LyricLine :=
  match execTs line.toList with
  | none => none
  | some r =>
    let millisecond : Nat :=
      match r.frac with
      | some ds => digitsToNat (padEnd3 ds)
      | none => 0
    let time : ℚ := tsTime r.minute r.second millisecond
    let text : String := String.mk (jsTrim (r.pre ++ r.post))
    if text = "" then none
    else
      let hasJapanese := hasKanaChar text
      let hasChineseChars := hasCJKChar text
      let isChinese := hasChineseChars && !hasJapanese
      if hasJapanese then
        let words :=
          match segmenter text with
          | some segs => (segs.filter fun p => p.isWordLike).map fun p => p.segment
          | none => perCharTokens text
        some ⟨time, text, words, true⟩
      else if !isChinese then
        some ⟨time, text, (jsSplitWs text.toList).map String.mk, false⟩
      else
        some ⟨time, text, [], false⟩

/-- `lrcContent.split('\n')`: split on every newline character, keeping
empty pieces (JavaScript semantics: the empty string splits to one empty
piece, a trailing newline yields a trailing empty piece). -/
def splitNl : List Char → List (List Char)
  | [] => [[]]
  | c :: cs =>
    if c = '\n' then [] :: splitNl cs
    else
      match splitNl cs with
      | t :: ts => (c :: t) :: ts
      | [] => [[c]]

/-- The comparator `(a, b) => a.time - b.time` of the final sort, as the
total preorder it induces. -/
def timeRel (a b : LyricLine) : Prop :=
  a.time ≤ b.time

instance : DecidableRel timeRel := fun a b =>
  inferInstanceAs (Decidable (a.time ≤ b.time))

instance : IsTotal LyricLine timeRel :=
  ⟨fun a b => le_total a.time b.time⟩

instance : IsTrans LyricLine timeRel :=
  ⟨fun _ _ _ h h' => le_trans h h'⟩

/-- The parser `parseLRC`: split the input on the newline character, process
every line, collect the survivors in order, and stably sort them ascending
by time (JavaScript `Array.prototype.sort` is a stable sort; the stable
insertion sort models it). -/
def parseLRC (segmenter : SegCap) (lrcContent : String) : List LyricLine :=
  let lines := (splitNl lrcContent.toList).map String.mk
  let lyrics := lines.foldl
    (fun acc line =>
      match parseLine segmenter line with
      | some l => acc ++ [l]
      | none => acc) []
  List.insertionSort timeRel lyrics

/-- A segmentation capability that always fails: models both the absence of
`Intl.Segmenter` and a segmenter that throws. -/
def segNone : SegCap := fun _ => none

/-- The text a line would contribute: the line with the first timestamp
marker removed and the remainder trimmed, or `none` when the timestamp
pattern does not match the line at all. -/
def lineText (line : String) : Option String :=
  match execTs line.toList with
  | none => none
  | some r => some (String.mk (jsTrim (r.pre ++ r.post)))

/-- The word list the source computes on the Japanese path: the word-like
segments of a successful segmentation, or one token per character when the
capability is absent or throws. -/
def japaneseWords (segmenter : SegCap) (text : String) : List String :=
  match segmenter text with
  | some segs => (segs.filter fun p => p.isWordLike).map fun p => p.segment
  | none => perCharTokens text

/-- The milliseconds value captured by a timestamp match. -/
def msOf (r : TsMatch) : Nat :=
  match r.frac with
  | some ds => digitsToNat (padEnd3 ds)
  | none => 0

theorem foldl_push_eq_filterMap (f : String → Option LyricLine) :
    ∀ (xs : List String) (init : List LyricLine),
      xs.foldl
        (fun acc line =>
          match f line with
          | some l => acc ++ [l]
          | none => acc) init = init ++ xs.filterMap f := by
  intro xs
  induction xs with
  | nil => intro init; simp
  | cons x xs ih =>
    intro init
    cases hfx : f x with
    | none => simp [List.foldl_cons, hfx, ih]
    | some l => simp [List.foldl_cons, hfx, ih]

/-- `parseLRC` is the per-line map-filter followed by the stable sort. -/
theorem parseLRC_eq (seg : SegCap) (s : String) :
    parseLRC seg s =
      List.insertionSort timeRel
        (((splitNl s.toList).map String.mk).filterMap (parseLine seg)) := by
  show List.insertionSort timeRel
      (((splitNl s.toList).map String.mk).foldl
        (fun acc line =>
          match parseLine seg line with
          | some l => acc ++ [l]
          | none => acc) []) = _
  rw [foldl_push_eq_filterMap, List.nil_append]

theorem mem_parseLRC {seg : SegCap} {s : String} {l : LyricLine} :
    l ∈ parseLRC seg s ↔
      ∃ line ∈ (splitNl s.toList).map String.mk, parseLine seg line = some l := by
  rw [parseLRC_eq, List.mem_insertionSort, List.mem_filterMap]

/-- Characterization of a successful `parseLine`: the shape of every emitted
`LyricLine`, by the branch structure of the source. -/
theorem parseLine_cases {seg : SegCap} {line : String} {pl : LyricLine}
    (h : parseLine seg line = some pl) :
    ∃ r, execTs line.toList = some r ∧
      pl.text = String.mk (jsTrim (r.pre ++ r.post)) ∧
      pl.text ≠ "" ∧
      pl.time = tsTime r.minute r.second (msOf r) ∧
      pl.isJapanese = hasKanaChar pl.text ∧
      (hasKanaChar pl.text = true → pl.words = japaneseWords seg pl.text) ∧
      (hasKanaChar pl.text = false → hasCJKChar pl.text = true → pl.words = []) ∧
      (hasKanaChar pl.text = false → hasCJKChar pl.text = false →
        pl.words = (jsSplitWs pl.text.toList).map String.mk) := by
  unfold parseLine at h
  cases hE : execTs line.toList with
  | none => rw [hE] at h; exact absurd h (by simp)
  | some r =>
    rw [hE] at h
    refine ⟨r, rfl, ?_⟩
    simp only at h
    by_cases ht : String.mk (jsTrim (r.pre ++ r.post)) = ""
    · rw [if_pos ht] at h; exact absurd h (by simp)
    · rw [if_neg ht] at h
      by_cases hj : hasKanaChar (String.mk (jsTrim (r.pre ++ r.post))) = true
      · rw [if_pos hj] at h
        injection h with h'
        subst h'
        exact ⟨rfl, ht, by simp [msOf], by simp [hj], fun _ => by simp [japaneseWords],
          fun hk _ => absurd hj (by simp [hk]), fun hk _ => absurd hj (by simp [hk])⟩
      · rw [if_neg hj] at h
        have hj' : hasKanaChar (String.mk (jsTrim (r.pre ++ r.post))) = false := by
          simpa using hj
        by_cases hc : hasCJKChar (String.mk (jsTrim (r.pre ++ r.post))) = true
        · rw [if_neg (by simp [hc, hj'])] at h
          injection h with h'
          subst h'
          exact ⟨rfl, ht, by simp [msOf], by simp [hj'], fun hk => absurd hk (by simp [hj']),
            fun _ _ => rfl, fun _ hc' => absurd hc (by simp [hc'])⟩
        · have hc' : hasCJKChar (String.mk (jsTrim (r.pre ++ r.post))) = false := by
            simpa using hc
          rw [if_pos (by simp [hc', hj'])] at h
          injection h with h'
          subst h'
          exact ⟨rfl, ht, by simp [msOf], by simp [hj'], fun hk => absurd hk (by simp [hj']),
            fun _ hcc => absurd hcc (by simp [hc']), fun _ _ => rfl⟩

theorem dropWhile_head?_not {p : Char → Bool} :
    ∀ (l : List Char) (c : Char), (l.dropWhile p).head? = some c → p c = false := by
  intro l
  induction l with
  | nil => intro c hc; simp [List.dropWhile] at hc
  | cons a l ih =>
    intro c hc
    by_cases ha : p a = true
    · rw [List.dropWhile_cons_of_pos ha] at hc
      exact ih c hc
    · rw [List.dropWhile_cons_of_neg ha] at hc
      simp at hc
      rw [← hc]
      simpa using ha
    
theorem dropWhile_getLast?_eq {p : Char → Bool} :
    ∀ (l : List Char), l.dropWhile p ≠ [] → (l.dropWhile p).getLast? = l.getLast? := by
  intro l
  induction l with
  | nil => intro hne; simp [List.dropWhile] at hne
  | cons a l ih =>
    intro hne
    by_cases ha : p a = true
    · rw [List.dropWhile_cons_of_pos ha] at hne ⊢
      rw [ih hne]
      have hl : l ≠ [] := by
        intro h0
        rw [h0] at hne
        simp [List.dropWhile] at hne
      cases l with
      | nil => exact absurd rfl hl
      | cons b l' => rw [List.getLast?_cons_cons]
    · rw [List.dropWhile_cons_of_neg ha]

theorem jsTrim_getLast?_not (cs : List Char) (c : Char)
    (h : (jsTrim cs).getLast? = some c) : isJsWhitespace c = false := by
  unfold jsTrim at h
  rw [List.getLast?_reverse] at h
  exact dropWhile_head?_not _ c h

theorem jsTrim_head?_not (cs : List Char) (c : Char)
    (h : (jsTrim cs).head? = some c) : isJsWhitespace c = false := by
  unfold jsTrim at h
  rw [List.head?_reverse] at h
  have hne : (((cs.dropWhile isJsWhitespace).reverse).dropWhile isJsWhitespace) ≠ [] := by
    intro h0
    rw [h0] at h
    simp at h
  rw [dropWhile_getLast?_eq _ hne, List.getLast?_reverse] at h
  exact dropWhile_head?_not _ c h

theorem splitWsGo_ne_nil : ∀ (cs acc : List Char) (mode : Bool),
    splitWsGo cs acc mode ≠ [] := by
  intro cs
  induction cs with
  | nil => intro acc mode; cases mode <;> simp [splitWsGo]
  | cons c cs ih =>
    intro acc mode
    cases mode with
    | false =>
      by_cases hc : isJsWhitespace c = true
      · simp only [splitWsGo, hc, if_pos]
        simp
      · simp only [splitWsGo, hc, if_neg, Bool.false_eq_true, not_false_iff]
        exact ih (c :: acc) false
    | true =>
      by_cases hc : isJsWhitespace c = true
      · simp only [splitWsGo, hc, if_pos]
        exact ih [] true
      · simp only [splitWsGo, hc, if_neg, Bool.false_eq_true, not_false_iff]
        exact ih [c] false

theorem splitWsGo_nonws : ∀ (cs acc : List Char) (mode : Bool),
    (∀ c ∈ acc, isJsWhitespace c = false) →
    ∀ p ∈ splitWsGo cs acc mode, ∀ c ∈ p, isJsWhitespace c = false := by
  intro cs
  induction cs with
  | nil =>
    intro acc mode hacc p hp
    cases mode with
    | false =>
      simp only [splitWsGo, List.mem_singleton] at hp
      subst hp
      intro c hc
      exact hacc c (by simpa using hc)
    | true =>
      simp only [splitWsGo, List.mem_singleton] at hp
      subst hp
      intro c hc
      simp at hc
  | cons a cs ih =>
    intro acc mode hacc p hp
    cases mode with
    | false =>
      by_cases ha : isJsWhitespace a = true
      · simp only [splitWsGo, ha, if_pos, List.mem_cons] at hp
        cases hp with
        | inl h =>
          subst h
          intro c hc
          exact hacc c (by simpa using hc)
        | inr h => exact ih [] true (by simp) p h
      · simp only [splitWsGo, ha, if_neg, Bool.false_eq_true, not_false_iff] at hp
        refine ih (a :: acc) false ?_ p hp
        intro c hc
        cases hc with
        | head => simpa using ha
        | tail _ h => exact hacc c h
    | true =>
      by_cases ha : isJsWhitespace a = true
      · simp only [splitWsGo, ha, if_pos] at hp
        exact ih [] true (by simp) p hp
      · simp only [splitWsGo, ha, if_neg, Bool.false_eq_true, not_false_iff] at hp
        refine ih [a] false ?_ p hp
        intro c hc
        cases hc with
        | head => simpa using ha
        | tail _ h => exact absurd h (List.not_mem_nil c)

theorem splitWsGo_nonempty : ∀ (cs acc : List Char) (mode : Bool),
    (mode = false → acc ≠ []) → (mode = true → cs ≠ []) →
    (∀ c, cs.getLast? = some c → isJsWhitespace c = false) →
    ∀ p ∈ splitWsGo cs acc mode, p ≠ [] := by
  intro cs
  induction cs with
  | nil =>
    intro acc mode hacc hcs _ p hp
    cases mode with
    | false =>
      simp only [splitWsGo, List.mem_singleton] at hp
      subst hp
      simpa using hacc rfl
    | true => exact absurd rfl (hcs rfl)
  | cons a cs ih =>
    intro acc mode hacc _ hlast p hp
    have hcs_ne : cs ≠ [] → ∀ c, cs.getLast? = some c → isJsWhitespace c = false := by
      intro hne c hc
      refine hlast c ?_
      cases cs with
      | nil => exact absurd rfl hne
      | cons b cs' => rw [List.getLast?_cons_cons]; exact hc
    cases mode with
    | false =>
      by_cases ha : isJsWhitespace a = true
      · have hcs' : cs ≠ [] := by
          intro h0
          subst h0
          have := hlast a (by simp)
          rw [this] at ha
          exact absurd ha (by simp)
        simp only [splitWsGo, ha, if_pos, List.mem_cons] at hp
        cases hp with
        | inl h =>
          subst h
          simpa using hacc rfl
        | inr h =>
          exact ih [] true (by simp) (fun _ => hcs') (hcs_ne hcs') p h
      · simp only [splitWsGo, ha, if_neg, Bool.false_eq_true, not_false_iff] at hp
        by_cases hcs' : cs = []
        · subst hcs'
          simp only [splitWsGo, List.mem_singleton] at hp
          subst hp
          simp
        · exact ih (a :: acc) false (fun _ => by simp) (by simp [hcs'])
            (hcs_ne hcs') p hp
    | true =>
      by_cases ha : isJsWhitespace a = true
      · have hcs' : cs ≠ [] := by
          intro h0
          subst h0
          have := hlast a (by simp)
          rw [this] at ha
          exact absurd ha (by simp)
        simp only [splitWsGo, ha, if_pos] at hp
        exact ih [] true (by simp) (fun _ => hcs') (hcs_ne hcs') p hp
      · simp only [splitWsGo, ha, if_neg, Bool.false_eq_true, not_false_iff] at hp
        by_cases hcs' : cs = []
        · subst hcs'
          simp only [splitWsGo, List.mem_singleton] at hp
          subst hp
          simp
        · exact ih [a] false (fun _ => by simp) (by simp [hcs'])
            (hcs_ne hcs') p hp

/-- The pieces of `text.split(/\s+/)` on a nonempty text that neither starts
nor ends with whitespace: every piece is nonempty and free of whitespace. -/
theorem jsSplitWs_tokens (cs : List Char) (hne : cs ≠ [])
    (hhead : ∀ c, cs.head? = some c → isJsWhitespace c = false)
    (hlast : ∀ c, cs.getLast? = some c → isJsWhitespace c = false) :
    ∀ p ∈ jsSplitWs cs, p ≠ [] ∧ ∀ c ∈ p, isJsWhitespace c = false := by
  cases cs with
  | nil => exact absurd rfl hne
  | cons a cs' =>
    have ha : isJsWhitespace a = false := hhead a (by simp)
    intro p hp
    unfold jsSplitWs at hp
    simp only [splitWsGo, ha, Bool.false_eq_true, if_neg, not_false_iff] at hp
    have hlast' : ∀ c, cs'.getLast? = some c → isJsWhitespace c = false := by
      intro c hc
      refine hlast c ?_
      cases cs' with
      | nil => simp at hc
      | cons b cs'' => rw [List.getLast?_cons_cons]; exact hc
    by_cases hcs' : cs' = []
    · subst hcs'
      simp only [splitWsGo, List.mem_singleton] at hp
      subst hp
      exact ⟨by simp, by intro c hc; simp at hc; subst hc; exact ha⟩
    · refine ⟨?_, ?_⟩
      · exact splitWsGo_nonempty cs' [a] false (fun _ => by simp) (by simp [hcs'])
          hlast' p hp
      · exact splitWsGo_nonws cs' [a] false
          (by intro c hc; simp at hc; subst hc; exact ha) p hp

theorem toList_mk (l : List Char) : (String.mk l).toList = l := rfl

theorem mk_ne_empty {l : List Char} (h : String.mk l ≠ "") : l ≠ [] := by
  intro h0
  subst h0
  exact h rfl

/-- `parseLine` consults the segmentation capability only at the line's
extracted text: two capabilities that agree there process the line
identically. -/
theorem parseLine_congr (seg seg' : SegCap) (line : String)
    (h : ∀ t, lineText line = some t → seg t = seg' t) :
    parseLine seg line = parseLine seg' line := by
  unfold parseLine
  cases hE : execTs line.toList with
  | none => rfl
  | some r =>
    simp only
    have htext : lineText line = some (String.mk (jsTrim (r.pre ++ r.post))) := by
      unfold lineText
      rw [hE]
    by_cases ht : String.mk (jsTrim (r.pre ++ r.post)) = ""
    · rw [if_pos ht, if_pos ht]
    · rw [if_neg ht, if_neg ht]
      by_cases hj : hasKanaChar (String.mk (jsTrim (r.pre ++ r.post))) = true
      · rw [if_pos hj, if_pos hj, h _ htext]
      · rw [if_neg hj, if_neg hj]

/-- C1: For every input string (and any segmentation capability), the
sequence returned by `parseLRC` is sorted non-decreasing by time: every pair
of adjacent elements satisfies `earlier.time ≤ later.time`. -/
theorem claim1_output_sorted_by_time (seg : SegCap) (s : String) :
    (parseLRC seg s).Chain' fun a b => a.time ≤ b.time := by
  rw [parseLRC_eq]
  exact (List.sorted_insertionSort timeRel
    (((splitNl s.toList).map String.mk).filterMap (parseLine seg))).chain'

/-- C2: `parseLRC` always returns a (possibly empty) sequence — it is the
per-line map-filter followed by the sort, so no line's failure affects the
whole; when the segmentation capability fails (`none`, modelling a throw or
absence) on a Japanese-classified line, that line's tokens degrade to one
token per character of its text; and each line's processing depends on the
capability only at that line's own extracted text, so every other line is
parsed normally. -/
theorem claim2_total_catch_fallback (seg : SegCap) (s : String) :
    parseLRC seg s =
      List.insertionSort timeRel
        (((splitNl s.toList).map String.mk).filterMap (parseLine seg)) ∧
    (∀ (line : String) (pl : LyricLine), parseLine seg line = some pl →
      hasKanaChar pl.text = true → seg pl.text = none →
      pl.words = perCharTokens pl.text) ∧
    (∀ (seg' : SegCap) (line : String),
      (∀ t, lineText line = some t → seg t = seg' t) →
      parseLine seg line = parseLine seg' line) := by
  refine ⟨parseLRC_eq seg s, ?_, fun seg' line h => parseLine_congr seg seg' line h⟩
  intro line pl hp hk hn
  obtain ⟨r, _, _, _, _, _, hjap, _, _⟩ := parseLine_cases hp
  rw [hjap hk]
  unfold japaneseWords
  rw [hn]

theorem claim2_witness :
    (⟨tsTime 0 1 0, "あい", ["あ", "い"], true⟩ : LyricLine).words =
      perCharTokens "あい" :=
  (claim2_total_catch_fallback segNone "[00:01.00]あい").2.1
    "[00:01.00]あい" ⟨tsTime 0 1 0, "あい", ["あ", "い"], true⟩ rfl rfl rfl

/-- C3: `parseLRC` on `"[00:01.50]Hello world"` yields exactly one line with
time `1.5 = 3/2`, text `"Hello world"`, tokens `["Hello", "world"]` and the
Japanese flag `false` (latin classification), for any segmentation
capability. -/
theorem claim3_latin_example (seg : SegCap) :
    parseLRC seg "[00:01.50]Hello world" =
      [⟨3/2, "Hello world", ["Hello", "world"], false⟩] := by
  have h : (3/2 : ℚ) = tsTime 0 1 500 := by norm_num [tsTime]
  rw [h]
  exact rfl

/-- C4 counterexample: `parseLRC` on `"[00:01.5]text"` yields no line at all
— the timestamp regex requires two or three fraction digits, so the
one-digit fraction fails the match and the line is dropped; in particular no
line with time `1.5` is produced, contrary to the claim. -/
theorem claim4_counterexample :
    ¬ ∃ l : LyricLine, l ∈ parseLRC segNone "[00:01.5]text" ∧ l.time = 3/2 := by
  rintro ⟨l, hl, _⟩
  rw [show parseLRC segNone "[00:01.5]text" = [] from rfl] at hl
  exact absurd hl (List.not_mem_nil l)

/-- C4 (amended): a two-digit fraction is centiseconds and a three-digit
fraction is milliseconds — `"[00:01.50]text"` and `"[00:01.500]text"` both
yield time `1.5` and `"[00:01.05]text"` yields `1.05 = 21/20` (not
`1.105`); but a one-digit fraction as in `"[00:01.5]text"` fails the
timestamp pattern and the line is dropped. -/
theorem claim4_fraction_amended (seg : SegCap) :
    parseLRC seg "[00:01.50]text" = [⟨3/2, "text", ["text"], false⟩] ∧
    parseLRC seg "[00:01.500]text" = [⟨3/2, "text", ["text"], false⟩] ∧
    parseLRC seg "[00:01.05]text" = [⟨21/20, "text", ["text"], false⟩] ∧
    parseLRC seg "[00:01.5]text" = [] := by
  have h2 : (3/2 : ℚ) = tsTime 0 1 500 := by norm_num [tsTime]
  have h3 : (21/20 : ℚ) = tsTime 0 1 50 := by norm_num [tsTime]
  refine ⟨?_, ?_, ?_, rfl⟩
  · rw [h2]; exact rfl
  · rw [h2]; exact rfl
  · rw [h3]; exact rfl

/-- C5: every emitted line whose text contains a Kana character (and a CJK
ideograph) is classified Japanese — the flag is `true` — and the source's
Chinese test `hasChineseChars && !hasJapanese` is `false` for it. -/
theorem claim5_kana_implies_japanese (seg : SegCap) (s : String) (l : LyricLine)
    (hl : l ∈ parseLRC seg s) (hk : hasKanaChar l.text = true)
    (_hc : hasCJKChar l.text = true) :
    l.isJapanese = true ∧ (hasCJKChar l.text && !hasKanaChar l.text) = false := by
  obtain ⟨line, _, hp⟩ := mem_parseLRC.mp hl
  obtain ⟨r, _, _, _, _, hflag, _, _, _⟩ := parseLine_cases hp
  exact ⟨by rw [hflag, hk], by rw [hk]; simp⟩

theorem claim5_witness :
    (⟨tsTime 0 1 0, "日本語です", perCharTokens "日本語です", true⟩ : LyricLine).isJapanese
        = true ∧
      (hasCJKChar "日本語です" && !hasKanaChar "日本語です") = false :=
  claim5_kana_implies_japanese segNone "[00:01.00]日本語です"
    ⟨tsTime 0 1 0, "日本語です", perCharTokens "日本語です", true⟩
    (by rw [show parseLRC segNone "[00:01.00]日本語です" =
        [⟨tsTime 0 1 0, "日本語です", perCharTokens "日本語です", true⟩] from rfl]
        exact List.mem_singleton.mpr rfl)
    rfl rfl

/-- C6: every emitted line whose text contains a CJK ideograph and no Kana
character (the Chinese classification) carries an empty token list. -/
theorem claim6_chinese_empty_tokens (seg : SegCap) (s : String) (l : LyricLine)
    (hl : l ∈ parseLRC seg s) (hc : hasCJKChar l.text = true)
    (hk : hasKanaChar l.text = false) : l.words = [] := by
  obtain ⟨line, _, hp⟩ := mem_parseLRC.mp hl
  obtain ⟨r, _, _, _, _, _, _, hchi, _⟩ := parseLine_cases hp
  exact hchi hk hc

theorem claim6_witness :
    (⟨tsTime 0 1 0, "你好", [], false⟩ : LyricLine).words = [] :=
  claim6_chinese_empty_tokens segNone "[00:01.00]你好"
    ⟨tsTime 0 1 0, "你好", [], false⟩
    (by rw [show parseLRC segNone "[00:01.00]你好" =
        [⟨tsTime 0 1 0, "你好", [], false⟩] from rfl]
        exact List.mem_singleton.mpr rfl)
    rfl rfl

/-- C7: a line on which the timestamp pattern finds no match contributes
nothing, and a line whose text is empty after removing the first marker and
trimming contributes nothing; in particular `"no timestamp here"` and
`"[00:05]   "` parse to the empty sequence.  No error arises — the line is
simply skipped. -/
theorem claim7_dropped_lines (seg : SegCap) :
    (∀ line : String, execTs line.toList = none → parseLine seg line = none) ∧
    (∀ (line : String) (r : TsMatch), execTs line.toList = some r →
      jsTrim (r.pre ++ r.post) = [] → parseLine seg line = none) ∧
    parseLRC seg "no timestamp here" = [] ∧
    parseLRC seg "[00:05]   " = [] := by
  refine ⟨?_, ?_, rfl, rfl⟩
  · intro line h
    unfold parseLine
    rw [h]
  · intro line r h ht
    unfold parseLine
    rw [h]
    simp only
    rw [if_pos (show String.mk (jsTrim (r.pre ++ r.post)) = "" by rw [ht])]

theorem claim7_witness :
    parseLine segNone "no timestamp here" = none ∧
    parseLine segNone "[00:05]   " = none :=
  ⟨(claim7_dropped_lines segNone).1 "no timestamp here" rfl,
    (claim7_dropped_lines segNone).2.1 "[00:05]   "
      ⟨[], 0, 5, none, [' ', ' ', ' ']⟩ rfl rfl⟩

/-- C8 counterexample: with a failing segmentation capability, the Japanese
line `"[00:01.00]あ い"` degrades to one token per character, and the
internal space becomes a token consisting only of whitespace — refuting the
claim that no tokenization path emits an empty-or-whitespace token. -/
theorem claim8_counterexample :
    ∃ l : LyricLine, l ∈ parseLRC segNone "[00:01.00]あ い" ∧
      ∃ w ∈ l.words, w ≠ "" ∧ ∀ c ∈ w.toList, isJsWhitespace c = true := by
  refine ⟨⟨tsTime 0 1 0, "あ い", ["あ", " ", "い"], true⟩, ?_, " ", ?_, ?_, ?_⟩
  · rw [show parseLRC segNone "[00:01.00]あ い" =
      [⟨tsTime 0 1 0, "あ い", ["あ", " ", "い"], true⟩] from rfl]
    exact List.mem_singleton.mpr rfl
  · simp
  · intro h
    exact absurd h (by decide)
  · intro c hc
    have : c = ' ' := by simpa using hc
    subst this
    rfl

/-- C8 (amended): in every emitted line that is not Japanese-classified —
the whitespace-splitting and Chinese paths — no token is empty and no token
contains any whitespace character; the Japanese per-character fallback is
excluded, since it turns each character of the text into a token, including
interior whitespace characters. -/
theorem claim8_tokens_amended (seg : SegCap) (s : String) (l : LyricLine)
    (hl : l ∈ parseLRC seg s) (hk : hasKanaChar l.text = false) :
    ∀ w ∈ l.words, w ≠ "" ∧ ∀ c ∈ w.toList, isJsWhitespace c = false := by
  obtain ⟨line, _, hp⟩ := mem_parseLRC.mp hl
  obtain ⟨r, _, htext, hne, _, _, _, hchi, hlat⟩ := parseLine_cases hp
  by_cases hc : hasCJKChar l.text = true
  · rw [hchi hk hc]
    intro w hw
    exact absurd hw (List.not_mem_nil w)
  · have hc' : hasCJKChar l.text = false := by simpa using hc
    rw [hlat hk hc']
    intro w hw
    rw [List.mem_map] at hw
    obtain ⟨p, hp', rfl⟩ := hw
    have hT : l.text.toList = jsTrim (r.pre ++ r.post) := by
      rw [htext]
      exact toList_mk _
    have hne' : jsTrim (r.pre ++ r.post) ≠ [] := by
      intro h0
      apply hne
      rw [htext, h0]
    rw [hT] at hp'
    have hall := jsSplitWs_tokens (jsTrim (r.pre ++ r.post)) hne'
      (fun c hc2 => jsTrim_head?_not (r.pre ++ r.post) c hc2)
      (fun c hc2 => jsTrim_getLast?_not (r.pre ++ r.post) c hc2) p hp'
    refine ⟨?_, ?_⟩
    · intro h0
      exact hall.1 (by simpa using congrArg String.toList h0)
    · intro c hc2
      exact hall.2 c (by simpa [toList_mk] using hc2)

theorem claim8_amended_witness :
    ("Hello" : String) ≠ "" ∧ ∀ c ∈ ("Hello" : String).toList, isJsWhitespace c = false :=
  claim8_tokens_amended segNone "[00:01.50]Hello world"
    ⟨tsTime 0 1 500, "Hello world", ["Hello", "world"], false⟩
    (by rw [show parseLRC segNone "[00:01.50]Hello world" =
        [⟨tsTime 0 1 500, "Hello world", ["Hello", "world"], false⟩] from rfl]
        exact List.mem_singleton.mpr rfl)
    rfl "Hello" (by simp)

/-- C9 counterexample: on the Windows-style input `"[00:01.00]Hello\r\n"`
the emitted text is `"Hello"` — the carriage return is removed (it is
JavaScript whitespace, so `trim` strips it), contrary to the claim that the
emitted text still ends with the carriage return. -/
theorem claim9_counterexample :
    ¬ ∃ l : LyricLine, l ∈ parseLRC segNone "[00:01.00]Hello\r\n" ∧
      l.text.toList.getLast? = some '\r' := by
  rintro ⟨l, hl, hlast⟩
  rw [show parseLRC segNone "[00:01.00]Hello\r\n" =
    [⟨tsTime 0 1 0, "Hello", ["Hello"], false⟩] from rfl] at hl
  rw [List.mem_singleton] at hl
  subst hl
  exact absurd hlast (by decide)

/-- C9 (amended): line splitting does not special-case the carriage return
— it stays part of the line's content — but the trimming of the extracted
text removes it at the ends, because it is JavaScript whitespace: the
Windows-style line yields text `"Hello"` without the carriage return, while
a carriage return strictly inside the text is preserved in `text` (and acts
as a token separator on the whitespace-splitting path). -/
theorem claim9_cr_amended (seg : SegCap) :
    parseLRC seg "[00:01.00]Hello\r\n" = [⟨1, "Hello", ["Hello"], false⟩] ∧
    parseLRC seg "[00:01.00]He\rllo\n" = [⟨1, "He\rllo", ["He", "llo"], false⟩] := by
  have h : (1 : ℚ) = tsTime 0 1 0 := by norm_num [tsTime]
  rw [h]
  exact ⟨rfl, rfl⟩

/-- C10: every emitted line whose text contains neither a Kana character nor
a CJK ideograph (the latin/default path) has a non-empty token list —
splitting the non-empty trimmed text on whitespace runs yields at least one
piece. -/
theorem claim10_latin_tokens_nonempty (seg : SegCap) (s : String) (l : LyricLine)
    (hl : l ∈ parseLRC seg s) (hk : hasKanaChar l.text = false)
    (hc : hasCJKChar l.text = false) : l.words ≠ [] := by
  obtain ⟨line, _, hp⟩ := mem_parseLRC.mp hl
  obtain ⟨r, _, _, _, _, _, _, _, hlat⟩ := parseLine_cases hp
  rw [hlat hk hc]
  intro h0
  rw [List.map_eq_nil_iff] at h0
  exact splitWsGo_ne_nil _ [] false h0

theorem claim10_witness :
    (⟨tsTime 0 1 500, "Hello world", ["Hello", "world"], false⟩ : LyricLine).words ≠ [] :=
  claim10_latin_tokens_nonempty segNone "[00:01.50]Hello world"
    ⟨tsTime 0 1 500, "Hello world", ["Hello", "world"], false⟩
    (by rw [show parseLRC segNone "[00:01.50]Hello world" =
        [⟨tsTime 0 1 500, "Hello world", ["Hello", "world"], false⟩] from rfl]
        exact List.mem_singleton.mpr rfl)
    rfl rfl
